import Mathlib

/-!
# dola: execution and coordination substrate

A shallow embedding of `util.go` (resource checker, `ErrorWaitGroup`),
`order_registry.go` (`OrderRegistry.OnSubmit`) and `toolbelt.go`
(`CurrencyBalance`), together with the library behaviour these functions rely on
(`go.uber.org/multierr`, `sync.WaitGroup`, `sync.Map`, Go maps, `errors.Is`).

Concurrent callers are represented by the sequence in which their operations take
effect: every operation below is one atomic step (the source guards each of them
with a mutex, a `sync.WaitGroup` or a `sync.Map`).
-/

namespace Dola

/-! ## Go errors and `go.uber.org/multierr` -/

/-- A non-nil Go `error` as `multierr` tells them apart: `plain e` is any error that
is not a `*multiError`, `multi errors` is a `*multiError` with its entries.  The
entries of a `*multiError` are never themselves `*multiError`s (the library flattens
them), so they are drawn from the same type `ε` of ordinary errors. -/
inductive ErrorValue (ε : Type) where
  | plain (e : ε)
  | multi (errors : List ε)
  deriving DecidableEq, Repr

/-- Go's `error` interface value: `none` is `nil`. -/
abbrev error (ε : Type) := Option (ErrorValue ε)

/-- The `Errors()` method of a non-nil error as used by `multierr` when it flattens:
the entries of a `*multiError`, the error itself otherwise. -/
def ErrorValue.Errors {ε : Type} : ErrorValue ε → List ε
  | .plain e => [e]
  | .multi errors => errors

/-- Function `multierr.Errors(err)`: `nil` has no entries, a `*multiError` yields (a copy of)
its entries, any other error yields the one-element list holding it. -/
def multierr.Errors {ε : Type} (err : error ε) : List ε :=
  match err with
  | none => []
  | some v => v.Errors

/-- Function `multierr.fromSlice`: empty and one-element slices are returned as they are;
otherwise the nil entries are dropped, zero non-nil entries give `nil`, one non-nil
entry is returned itself, and several are flattened into a fresh `*multiError`
(nested `*multiError`s contribute their entries, in order). -/
def multierr.fromSlice {ε : Type} (errors : List (error ε)) : error ε :=
  match errors with
  | [] => none
  | [e] => e
  | _ =>
    match errors.filterMap id with
    | [] => none
    | [v] => some v
    | vs => some (.multi (vs.flatMap ErrorValue.Errors))

/-- Function `multierr.Append(left, right)`.  A nil side returns the other side unchanged.
With a `right` that is not a `*multiError`: two ordinary errors give a two-entry
`*multiError`, and a `*multiError` on the left is extended by `right`.  In every
other case the pair goes through `fromSlice`. -/
def multierr.Append {ε : Type} (left right : error ε) : error ε :=
  match left, right with
  | none, _ => right
  | _, none => left
  | some (.plain l), some (.plain r) => some (.multi [l, r])
  | some (.multi ls), some (.plain r) => some (.multi (ls ++ [r]))
  | some l, some (.multi rs) => multierr.fromSlice [some l, some (.multi rs)]

/-! ## `sync.WaitGroup` and `ErrorWaitGroup` (util.go) -/

/-- Conversion to `int32`: the value in the range from `-2^31` to `2^31 - 1` that is
congruent to `x` modulo `2^32`. -/
def toInt32 (x : Int) : Int :=
  (x + 2147483648) % 4294967296 - 2147483648

/-- Type `sync.WaitGroup`: the counter, which the library keeps as an `int32` in the high
half of its 64-bit state.  The waiter count in the low half is not represented: a
blocked `Wait` is a `Wait` step that has not taken place yet. -/
structure WaitGroup where
  counter : Int
  inRange : -2147483648 ≤ counter ∧ counter < 2147483648
  deriving DecidableEq, Repr

/-- The zero value `sync.WaitGroup{}`: counter zero. -/
def WaitGroup.zero : WaitGroup :=
  { counter := 0, inRange := by decide }

/-- Function `sync.WaitGroup.Add(delta)`: the library adds `uint64(delta) << 32` to its
state and reads the counter back as `int32(state >> 32)`, so the counter becomes the
`int32` value of `counter + delta` (only the low 32 bits of `delta` arrive).  The
call panics (`none`) when that value is negative. -/
def WaitGroup.Add (wg : WaitGroup) (delta : Int) : Option WaitGroup :=
  if toInt32 (wg.counter + delta) < 0 then none
  else some { counter := toInt32 (wg.counter + delta)
              inRange := by unfold toInt32; omega }

/-- Type `ErrorWaitGroup` of util.go: the accumulated error and the embedded
`sync.WaitGroup`.  The `mutex` field carries no data; it makes `Done` atomic, which
is how `Done` is modelled. -/
structure ErrorWaitGroup (ε : Type) where
  err : error ε
  group : WaitGroup
  deriving DecidableEq, Repr

/-- The zero value `ErrorWaitGroup{}`: no error, counter zero. -/
def ErrorWaitGroup.fresh {ε : Type} : ErrorWaitGroup ε :=
  { err := none, group := WaitGroup.zero }

/-- Function `(m *ErrorWaitGroup) Add(delta)`: `m.group.Add(delta)`. -/
def ErrorWaitGroup.Add {ε : Type} (m : ErrorWaitGroup ε) (delta : Int) :
    Option (ErrorWaitGroup ε) :=
  (m.group.Add delta).map fun g => { m with group := g }

/-- Function `(m *ErrorWaitGroup) Done(right)`: `m.err = multierr.Append(m.err, right)` under
the mutex, then `m.group.Done()`, which is `Add(-1)` on the wait group. -/
def ErrorWaitGroup.Done {ε : Type} (m : ErrorWaitGroup ε) (right : error ε) :
    Option (ErrorWaitGroup ε) :=
  let m1 : ErrorWaitGroup ε := { m with err := multierr.Append m.err right }
  (m1.group.Add (-1)).map fun g => { m1 with group := g }

/-- Function `(m *ErrorWaitGroup) Wait()`: `m.group.Wait()` lets the caller through only when
the counter is zero (`none`: still blocked); the call then returns `m.err`. -/
def ErrorWaitGroup.Wait {ε : Type} (m : ErrorWaitGroup ε) : Option (error ε) :=
  if m.group.counter = 0 then some m.err else none

/-- One step of an execution on an `ErrorWaitGroup`: a call of `Add`, a call of
`Done`, or the return of a call of `Wait`. -/
inductive Call (ε : Type) where
  | Add (delta : Int)
  | Done (right : error ε)
  | Wait
  deriving DecidableEq, Repr

/-- Effect of one step.  `none` when the step panics (negative counter) or, for
`Wait`, when the call cannot return in this state.  `Wait` changes nothing. -/
def ErrorWaitGroup.step {ε : Type} (m : ErrorWaitGroup ε) : Call ε → Option (ErrorWaitGroup ε)
  | .Add delta => m.Add delta
  | .Done right => m.Done right
  | .Wait => (m.Wait).map fun _ => m

/-- An execution: the steps take effect one after the other. -/
def ErrorWaitGroup.exec {ε : Type} (m : ErrorWaitGroup ε) : List (Call ε) → Option (ErrorWaitGroup ε)
  | [] => some m
  | c :: cs => (m.step c).bind fun m1 => m1.exec cs

/-- The errors handed to the `Done` calls of an execution, in call order. -/
def doneErrors {ε : Type} : List (Call ε) → List (error ε)
  | [] => []
  | .Done right :: cs => right :: doneErrors cs
  | _ :: cs => doneErrors cs

/-- The sum of the deltas of the `Add` calls of an execution. -/
def addTotal {ε : Type} : List (Call ε) → Int
  | [] => 0
  | .Add delta :: cs => delta + addTotal cs
  | _ :: cs => addTotal cs

/-- The aggregate of a list of errors: `multierr.Append` folded from `nil`, which is
what successive `Done` calls compute in `m.err`. -/
def aggregate {ε : Type} (errs : List (error ε)) : error ε :=
  errs.foldl multierr.Append none

/-- A run of `errs.length` units on a fresh group: each unit is declared with
`Add(1)` and reports with `Done`, in the given completion order; then `Wait`.  The
result is what `Wait` returns. -/
def runUnits {ε : Type} (errs : List (error ε)) : Option (error ε) :=
  (ErrorWaitGroup.fresh.exec (errs.flatMap fun e => [Call.Add 1, Call.Done e])).bind
    ErrorWaitGroup.Wait

/-- A run that declares all units at once: `Add(len)`, one `Done` per unit in the
given completion order, then `Wait`.  The result is what `Wait` returns. -/
def runUnitsBatch {ε : Type} (errs : List (error ε)) : Option (error ε) :=
  (ErrorWaitGroup.fresh.exec (Call.Add errs.length :: errs.map Call.Done)).bind
    ErrorWaitGroup.Wait

/-- An ordinary (non-aggregate) result of a unit: no failure, or one plain failure. -/
def plainResult {ε : Type} : Option ε → error ε
  | none => none
  | some e => some (.plain e)

/-! ## Go maps and `sync.Map` -/

/-- The contents of a Go map or of a `sync.Map`: finitely many entries, at most one
per key.  The order of `entries` has no meaning (Go iterates in no fixed order). -/
structure GoMap (κ ν : Type) where
  entries : List (κ × ν)
  nodupKeys : (entries.map Prod.fst).Nodup

/-- The empty map, `make(map[K]V)` or `sync.Map{}`. -/
def GoMap.empty {κ ν : Type} : GoMap κ ν :=
  { entries := [], nodupKeys := List.nodup_nil }

/-- Operation `Load(key)` / the comma-ok read `m[key]`: the value stored under the key, if any. -/
def GoMap.Load {κ ν : Type} [DecidableEq κ] (m : GoMap κ ν) (key : κ) : Option ν :=
  (m.entries.find? fun p => p.1 = key).map Prod.snd

/-- Operation `Store(key, value)` / `m[key] = value`: the entry of `key` is replaced, or added
when there was none; all other entries stay. -/
def GoMap.Store {κ ν : Type} [DecidableEq κ] (m : GoMap κ ν) (key : κ) (value : ν) :
    GoMap κ ν :=
  { entries := (key, value) :: m.entries.filter fun p => p.1 ≠ key
    nodupKeys := by
      rw [List.map_cons, List.nodup_cons]
      refine ⟨?_, m.nodupKeys.sublist ((List.filter_sublist m.entries).map Prod.fst)⟩
      intro h
      obtain ⟨p, hp, hk⟩ := List.mem_map.1 h
      have := (List.mem_filter.1 hp).2
      simp only [decide_eq_true_eq] at this
      exact this hk }

/-- The number of entries (what a full `Range` visits, or `len(m)`). -/
def GoMap.Len {κ ν : Type} (m : GoMap κ ν) : Nat :=
  m.entries.length

/-- The plain read `m[key]` of a `map[string]int`: a missing key reads as `0`. -/
def GoMap.index {κ : Type} [DecidableEq κ] (m : GoMap κ Int) (key : κ) : Int :=
  (m.Load key).getD 0

/-! ## Resource checker (util.go) -/

/-- Type `resourceChecker` of util.go: the counter map.  The mutex `m` carries no data; it
makes each operation atomic.  The `int` counters are represented by `Int`: a
counter moves by one per call, so it stays within the range of `int` for any
number of calls a process can make. -/
structure resourceChecker where
  resources : GoMap String Int

/-- The initial `defaultResourceChecker`: `make(map[string]int)`. -/
def defaultResourceChecker : resourceChecker :=
  { resources := GoMap.empty }

/-- Function `CheckerPush(xs ...string)` on the checker state.  `location2` stands for the
result of `Location2()`, the name of the calling function.  More than one argument
panics (`none`). -/
def CheckerPush (location2 : String) (xs : List String) (c : resourceChecker) :
    Option resourceChecker :=
  let name : Option String :=
    match xs with
    | [] => some location2
    | [x] => some x
    | _ => none
  name.map fun n => { resources := c.resources.Store n (c.resources.index n + 1) }

/-- Function `CheckerPop(xs ...string)` on the checker state; as `CheckerPush`, with a decrement. -/
def CheckerPop (location2 : String) (xs : List String) (c : resourceChecker) :
    Option resourceChecker :=
  let name : Option String :=
    match xs with
    | [] => some location2
    | [x] => some x
    | _ => none
  name.map fun n => { resources := c.resources.Store n (c.resources.index n - 1) }

/-- Modelled from the spec: the logging helper `What` is not among the sources; a
call `What(event, what)` is represented by the event it emits.  `Debug what` is a
debug-level event, `Warn counter unit what` a warning carrying the fields
`counter` and `unit` set by `CheckerAssert`. -/
inductive LogEvent where
  | Debug (what : String)
  | Warn (counter : Int) (unit : String) (what : String)
  deriving DecidableEq, Repr

/-- Function `CheckerAssert()`: emits the debug event, then (after the sleep, which has no
effect on the state) ranges over the counter map and emits one warning per entry
whose counter is not zero.  Returns the checker state it leaves and the events. -/
def CheckerAssert (c : resourceChecker) : resourceChecker × List LogEvent :=
  (c, c.resources.entries.foldl
        (fun log kv => if kv.2 ≠ 0 then log ++ [LogEvent.Warn kv.2 kv.1 "leaked resource"] else log)
        [LogEvent.Debug "checking resources..."])

/-- A call of the single-name form, `CheckerPush(name)` or `CheckerPop(name)`. -/
inductive CheckerCall where
  | Push (name : String)
  | Pop (name : String)
  deriving DecidableEq, Repr

/-- Runs single-name calls one after the other (`none` if one of them panics). -/
def runChecker (location2 : String) (c : resourceChecker) :
    List CheckerCall → Option resourceChecker
  | [] => some c
  | .Push name :: cs => (CheckerPush location2 [name] c).bind fun c1 => runChecker location2 c1 cs
  | .Pop name :: cs => (CheckerPop location2 [name] c).bind fun c1 => runChecker location2 c1 cs

/-- The number of `Push(name)` calls in a list of calls. -/
def pushCount (name : String) (cs : List CheckerCall) : Nat :=
  cs.count (CheckerCall.Push name)

/-- The number of `Pop(name)` calls in a list of calls. -/
def popCount (name : String) (cs : List CheckerCall) : Nat :=
  cs.count (CheckerCall.Pop name)

/-! ## Order registry (order_registry.go) -/

/-- Type `OrderKey` of order_registry.go. -/
structure OrderKey where
  ExchangeName : String
  OrderID : String
  deriving DecidableEq, Repr

/-- Type `order.SubmitResponse` of the exchange library: the `OrderID` read by `OnSubmit`,
and the remaining fields of the acknowledgement gathered in `rest` (their
declaration lies outside the sources, so their type is a parameter). -/
structure SubmitResponse (ρ : Type) where
  OrderID : String
  rest : ρ
  deriving DecidableEq, Repr

/-- Type `OrderValue` of order_registry.go; `υ` is the type of the `interface{}` payload. -/
structure OrderValue (ρ υ : Type) where
  SubmitResponse : Dola.SubmitResponse ρ
  UserData : υ
  deriving DecidableEq, Repr

/-- Type `OrderRegistry` of order_registry.go: the contents of its `sync.Map`. -/
structure OrderRegistry (ρ υ : Type) where
  m : GoMap OrderKey (OrderValue ρ υ)

/-- Function `NewOrderRegistry()`. -/
def NewOrderRegistry {ρ υ : Type} : OrderRegistry ρ υ :=
  { m := GoMap.empty }

/-- Function `(r *OrderRegistry) OnSubmit(exchangeName, response, userData)`. -/
def OrderRegistry.OnSubmit {ρ υ : Type} (r : OrderRegistry ρ υ) (exchangeName : String)
    (response : SubmitResponse ρ) (userData : υ) : OrderRegistry ρ υ :=
  let key : OrderKey := { ExchangeName := exchangeName, OrderID := response.OrderID }
  let value : OrderValue ρ υ := { SubmitResponse := response, UserData := userData }
  { m := r.m.Store key value }

/-- One `OnSubmit` call: venue name, acknowledgement, context. -/
structure Submission (ρ υ : Type) where
  exchangeName : String
  response : SubmitResponse ρ
  userData : υ

/-- The key under which a submission is stored. -/
def Submission.key {ρ υ : Type} (c : Submission ρ υ) : OrderKey :=
  { ExchangeName := c.exchangeName, OrderID := c.response.OrderID }

/-- The value a submission stores. -/
def Submission.value {ρ υ : Type} (c : Submission ρ υ) : OrderValue ρ υ :=
  { SubmitResponse := c.response, UserData := c.userData }

/-- The `OnSubmit` calls of a list of submissions, taking effect in list order. -/
def OrderRegistry.submitAll {ρ υ : Type} (r : OrderRegistry ρ υ) :
    List (Submission ρ υ) → OrderRegistry ρ υ
  | [] => r
  | c :: cs => (r.OnSubmit c.exchangeName c.response c.userData).submitAll cs

/-! ## Toolbelt (toolbelt.go) -/

/-- Modelled from the spec: `ErrStrategyNotFound` is declared with the strategy
registry, which is not among the sources; it is the `StrategyNotFound` condition, a
sentinel error of its own.  The other constructors are the ordinary error values met
by the toolbelt: `ErrNeedBalancesStrategy` and `ErrCast`, the two `errors.New`
values of toolbelt.go, any other error that wraps nothing, and an error wrapping
another one (`%w`). -/
inductive GoErr where
  | ErrStrategyNotFound
  | ErrNeedBalancesStrategy
  | ErrCast
  | other (text : String)
  | Wrap (text : String) (inner : GoErr)
  deriving DecidableEq, Repr

/-- Function `errors.Is` on an ordinary error: the error is the target, or it wraps, through
any number of layers, the target. -/
def GoErr.Is : GoErr → GoErr → Bool
  | .Wrap text inner, target => decide (GoErr.Wrap text inner = target) || inner.Is target
  | e, target => decide (e = target)

/-- Function `errors.Is(err, target)` for a non-nil `target`: false for a nil `err`; a
`*multiError` matches when one of its entries does. -/
def errors.Is (err : error GoErr) (target : GoErr) : Bool :=
  match err with
  | none => false
  | some (.plain e) => e.Is target
  | some (.multi es) => es.any fun e => e.Is target

/-- Modelled from the spec: `BalancesStrategy` is not among the sources; it is the
balances-oriented strategy, of which `CurrencyBalance` uses only the method
`Currency(exchangeName, currencyCode, accountIndex)`.  `β` is `account.Balance`. -/
structure BalancesStrategy (β : Type) where
  Currency : String → String → Int → β × error GoErr

/-- The dynamic type of a non-nil `Strategy` interface value: a `*BalancesStrategy`,
or a value of some other concrete type (named by `dynamicType`). -/
inductive Strategy (β : Type) where
  | BalancesStrategyPtr (b : BalancesStrategy β)
  | other (dynamicType : String)

/-- Modelled from the spec: the strategy registry is not among the sources.  Its
`Get(name)` returns the strategy bound to `name` (`none` is the nil interface) and
an error; it is taken as an arbitrary function. -/
structure RootStrategy (β : Type) where
  Get : String → Option (Strategy β) × error GoErr

/-- Modelled from the spec: `Keep` is not among the sources; the execution engine
owns the root of the strategy registry. -/
structure Keep (β : Type) where
  Root : RootStrategy β

/-- A recorded invocation of `(*BalancesStrategy).Currency`. -/
structure CurrencyCall where
  exchangeName : String
  currencyCode : String
  accountIndex : Int
  deriving DecidableEq, Repr

/-- Function `CurrencyBalance(k, exchangeName, currencyCode, accountIndex)`.  The result is
the returned pair together with the invocations of `Currency` made on the way.
`default` is the zero value `var empty account.Balance`. -/
def CurrencyBalance {β : Type} [Inhabited β] (k : Keep β) (exchangeName currencyCode : String)
    (accountIndex : Int) : (β × error GoErr) × List CurrencyCall :=
  let (st, err) := k.Root.Get "balances"
  if errors.Is err GoErr.ErrStrategyNotFound then
    ((default, some (.plain GoErr.ErrNeedBalancesStrategy)), [])
  else
    match st with
    | some (.BalancesStrategyPtr balances) =>
      (balances.Currency exchangeName currencyCode accountIndex,
        [{ exchangeName := exchangeName, currencyCode := currencyCode,
           accountIndex := accountIndex }])
    | _ => ((default, some (.plain GoErr.ErrCast)), [])

/-! ## Facts about `multierr` -/

theorem multierr.Append_nil_right {ε : Type} (left : error ε) :
    multierr.Append left none = left := by
  rcases left with _ | (l | ls) <;> rfl

theorem multierr.Append_nil_left {ε : Type} (right : error ε) :
    multierr.Append none right = right := by
  rcases right with _ | (r | rs) <;> rfl

theorem multierr.Errors_Append {ε : Type} (left right : error ε) :
    multierr.Errors (multierr.Append left right)
      = multierr.Errors left ++ multierr.Errors right := by
  rcases left with _ | (l | ls) <;> rcases right with _ | (r | rs) <;>
    simp [multierr.Append, multierr.Errors, multierr.fromSlice, ErrorValue.Errors]

theorem multierr.Append_ne_nil {ε : Type} (left : error ε) (v : ErrorValue ε) :
    multierr.Append left (some v) ≠ none := by
  rcases left with _ | (l | ls) <;> rcases v with r | rs <;>
    simp [multierr.Append, multierr.fromSlice]

theorem multierr.Append_left_ne_nil {ε : Type} (v : ErrorValue ε) (right : error ε) :
    multierr.Append (some v) right ≠ none := by
  rcases right with _ | w
  · simp [multierr.Append_nil_right]
  · exact multierr.Append_ne_nil _ w

theorem foldl_Append_Errors {ε : Type} (errs : List (error ε)) (acc : error ε) :
    multierr.Errors (errs.foldl multierr.Append acc)
      = multierr.Errors acc ++ errs.flatMap multierr.Errors := by
  induction errs generalizing acc with
  | nil => simp
  | cons e es ih =>
    simp [List.foldl_cons, ih, multierr.Errors_Append, List.append_assoc]

theorem Errors_aggregate {ε : Type} (errs : List (error ε)) :
    multierr.Errors (aggregate errs) = errs.flatMap multierr.Errors := by
  rw [aggregate, foldl_Append_Errors]
  rfl

theorem foldl_Append_eq_nil {ε : Type} (errs : List (error ε)) (acc : error ε) :
    errs.foldl multierr.Append acc = none ↔ acc = none ∧ ∀ e ∈ errs, e = none := by
  induction errs generalizing acc with
  | nil => simp
  | cons e es ih =>
    rw [List.foldl_cons, ih]
    constructor
    · rintro ⟨h, hes⟩
      rcases acc with _ | a
      · rw [multierr.Append_nil_left] at h
        exact ⟨rfl, by simpa [h] using hes⟩
      · exact absurd h (multierr.Append_left_ne_nil a e)
    · rintro ⟨h, hes⟩
      subst h
      have he : e = none := hes e (List.mem_cons_self _ _)
      subst he
      exact ⟨rfl, fun x hx => hes x (List.mem_cons_of_mem _ hx)⟩

theorem aggregate_eq_nil {ε : Type} (errs : List (error ε)) :
    aggregate errs = none ↔ ∀ e ∈ errs, e = none := by
  simp [aggregate, foldl_Append_eq_nil]

/-! ## Facts about executions of an `ErrorWaitGroup` -/

theorem toInt32_congr (x : Int) : ∃ q : Int, toInt32 x = x + q * 4294967296 :=
  ⟨-((x + 2147483648) / 4294967296), by unfold toInt32; omega⟩

theorem toInt32_of_inRange (x : Int) (h : -2147483648 ≤ x ∧ x < 2147483648) :
    toInt32 x = x := by
  unfold toInt32
  omega

theorem WaitGroup.ext_counter (a b : WaitGroup) (h : a.counter = b.counter) : a = b := by
  cases a
  cases b
  simp only [WaitGroup.mk.injEq]
  exact h

theorem WaitGroup.Add_eq_some (wg g : WaitGroup) (delta : Int) (h : wg.Add delta = some g) :
    g.counter = toInt32 (wg.counter + delta) ∧ 0 ≤ g.counter := by
  unfold WaitGroup.Add at h
  split at h
  · exact absurd h (by simp)
  · simp only [Option.some.injEq] at h
    subst h
    exact ⟨rfl, by simpa using ‹¬ toInt32 (wg.counter + delta) < 0›⟩

theorem WaitGroup.Add_of_inRange (wg : WaitGroup) (delta : Int)
    (h : 0 ≤ wg.counter + delta ∧ wg.counter + delta < 2147483648) :
    ∃ g, wg.Add delta = some g ∧ g.counter = wg.counter + delta := by
  have hconv : toInt32 (wg.counter + delta) = wg.counter + delta :=
    toInt32_of_inRange _ ⟨by omega, h.2⟩
  have h0 : ¬ toInt32 (wg.counter + delta) < 0 := by omega
  refine ⟨{ counter := toInt32 (wg.counter + delta), inRange := by unfold toInt32; omega },
    ?_, hconv⟩
  simp only [WaitGroup.Add, h0, if_false]

theorem step_invariant {ε : Type} (c : Call ε) (m m1 : ErrorWaitGroup ε)
    (h : m.step c = some m1) :
    m1.err = (doneErrors [c]).foldl multierr.Append m.err
      ∧ (∃ q : Int, m1.group.counter
          = m.group.counter + addTotal [c] - ((doneErrors [c]).length : Int) + q * 4294967296)
      ∧ (0 ≤ m.group.counter → 0 ≤ m1.group.counter) := by
  cases c with
  | Add delta =>
    simp only [ErrorWaitGroup.step, ErrorWaitGroup.Add, Option.map_eq_some'] at h
    obtain ⟨g, hg, rfl⟩ := h
    obtain ⟨hcounter, hnonneg⟩ := WaitGroup.Add_eq_some _ _ _ hg
    obtain ⟨q, hq⟩ := toInt32_congr (m.group.counter + delta)
    refine ⟨rfl, ⟨q, ?_⟩, fun _ => hnonneg⟩
    simp only [doneErrors, addTotal, List.length_nil]
    rw [hcounter, hq]
    push_cast
    omega
  | Done right =>
    simp only [ErrorWaitGroup.step, ErrorWaitGroup.Done, Option.map_eq_some'] at h
    obtain ⟨g, hg, rfl⟩ := h
    obtain ⟨hcounter, hnonneg⟩ := WaitGroup.Add_eq_some _ _ _ hg
    obtain ⟨q, hq⟩ := toInt32_congr (m.group.counter + -1)
    refine ⟨rfl, ⟨q, ?_⟩, fun _ => hnonneg⟩
    simp only [doneErrors, addTotal, List.length_cons, List.length_nil]
    rw [hcounter, hq]
    push_cast
    omega
  | Wait =>
    simp only [ErrorWaitGroup.step, Option.map_eq_some'] at h
    obtain ⟨_, _, rfl⟩ := h
    exact ⟨rfl, ⟨0, by simp [doneErrors, addTotal]⟩, fun h0 => h0⟩

theorem doneErrors_cons {ε : Type} (c : Call ε) (cs : List (Call ε)) :
    doneErrors (c :: cs) = doneErrors [c] ++ doneErrors cs := by
  cases c <;> rfl

theorem addTotal_cons {ε : Type} (c : Call ε) (cs : List (Call ε)) :
    addTotal (c :: cs) = addTotal [c] + addTotal cs := by
  cases c <;> simp [addTotal]

theorem exec_invariant {ε : Type} (cs : List (Call ε)) (m s : ErrorWaitGroup ε)
    (h : m.exec cs = some s) :
    s.err = (doneErrors cs).foldl multierr.Append m.err
      ∧ (∃ q : Int, s.group.counter
          = m.group.counter + addTotal cs - ((doneErrors cs).length : Int) + q * 4294967296)
      ∧ (0 ≤ m.group.counter → 0 ≤ s.group.counter) := by
  induction cs generalizing m with
  | nil =>
    simp only [ErrorWaitGroup.exec, Option.some.injEq] at h
    subst h
    exact ⟨rfl, ⟨0, by simp [doneErrors, addTotal]⟩, fun h0 => h0⟩
  | cons c cs ih =>
    simp only [ErrorWaitGroup.exec, Option.bind_eq_some] at h
    obtain ⟨m1, hstep, hrest⟩ := h
    obtain ⟨herr, ⟨q, hq⟩, hnonneg⟩ := ih m1 hrest
    obtain ⟨herr1, ⟨q1, hq1⟩, hnonneg1⟩ := step_invariant c m m1 hstep
    refine ⟨?_, ⟨q + q1, ?_⟩, fun h0 => hnonneg (hnonneg1 h0)⟩
    · rw [doneErrors_cons c cs, List.foldl_append, ← herr1]
      exact herr
    · rw [hq, hq1, doneErrors_cons c cs, addTotal_cons c cs, List.length_append]
      push_cast
      omega

theorem exec_Done_all {ε : Type} (errs : List (error ε)) (m : ErrorWaitGroup ε)
    (h : (errs.length : Int) ≤ m.group.counter) :
    ∃ s, m.exec (errs.map Call.Done) = some s
      ∧ s.err = errs.foldl multierr.Append m.err
      ∧ s.group.counter = m.group.counter - errs.length := by
  induction errs generalizing m with
  | nil => exact ⟨m, rfl, rfl, by simp⟩
  | cons e es ih =>
    simp only [List.length_cons, Nat.cast_succ] at h
    have hrange := m.group.inRange
    obtain ⟨g, hg, hcounter⟩ := WaitGroup.Add_of_inRange m.group (-1) (by omega)
    obtain ⟨s, hexec, herr, hgroup⟩ :=
      ih { err := multierr.Append m.err e, group := g } (by simp only []; omega)
    refine ⟨s, ?_, by simpa using herr, ?_⟩
    · simp only [List.map_cons, ErrorWaitGroup.exec, ErrorWaitGroup.step, ErrorWaitGroup.Done,
        hg, Option.map_some', Option.some_bind]
      exact hexec
    · rw [hgroup]
      simp only [List.length_cons, Nat.cast_succ]
      omega

theorem exec_units {ε : Type} (errs : List (error ε)) (m : ErrorWaitGroup ε)
    (h : m.group.counter = 0) :
    m.exec (errs.flatMap fun e => [Call.Add 1, Call.Done e])
      = some { err := errs.foldl multierr.Append m.err, group := m.group } := by
  induction errs generalizing m with
  | nil => simp [ErrorWaitGroup.exec]
  | cons e es ih =>
    obtain ⟨g1, hg1, hc1⟩ := WaitGroup.Add_of_inRange m.group 1 (by omega)
    obtain ⟨g2, hg2, hc2⟩ := WaitGroup.Add_of_inRange g1 (-1) (by omega)
    have hback : g2 = m.group := WaitGroup.ext_counter _ _ (by omega)
    have hcons : ((e :: es).flatMap fun e => [Call.Add 1, Call.Done e])
        = Call.Add 1 :: Call.Done e :: (es.flatMap fun e => [Call.Add 1, Call.Done e]) := rfl
    rw [hcons]
    simp only [ErrorWaitGroup.exec, ErrorWaitGroup.step, ErrorWaitGroup.Add,
      ErrorWaitGroup.Done, hg1, hg2, Option.map_some', Option.some_bind]
    rw [hback, ih { err := multierr.Append m.err e, group := m.group } h]
    rfl

theorem runUnits_eq {ε : Type} (errs : List (error ε)) :
    runUnits errs = some (aggregate errs) := by
  rw [runUnits, exec_units errs ErrorWaitGroup.fresh rfl]
  rfl

theorem runUnitsBatch_eq {ε : Type} (errs : List (error ε)) (h : errs.length < 2147483648) :
    runUnitsBatch errs = some (aggregate errs) := by
  obtain ⟨g, hg, hcounter⟩ :=
    WaitGroup.Add_of_inRange WaitGroup.zero (errs.length : Int)
      (by simp only [WaitGroup.zero]; omega)
  obtain ⟨s, hexec, herr, hgroup⟩ :=
    exec_Done_all errs ({ err := none, group := g } : ErrorWaitGroup ε)
      (by simp only [hcounter, WaitGroup.zero]; omega)
  have hzero : s.group.counter = 0 := by
    rw [hgroup]
    simp only [hcounter, WaitGroup.zero]
    omega
  simp only [runUnitsBatch, ErrorWaitGroup.exec, ErrorWaitGroup.step, ErrorWaitGroup.Add,
    ErrorWaitGroup.fresh, hg, Option.map_some', Option.some_bind, hexec,
    ErrorWaitGroup.Wait, hzero, if_true, herr]
  rfl

/-! ## Facts about Go maps -/

theorem find_entry_iff {κ ν : Type} [DecidableEq κ] (l : List (κ × ν))
    (h : (l.map Prod.fst).Nodup) (k : κ) (v : ν) :
    (l.find? fun p => p.1 = k).map Prod.snd = some v ↔ (k, v) ∈ l := by
  induction l with
  | nil => simp
  | cons p l ih =>
    rw [List.map_cons, List.nodup_cons] at h
    by_cases hp : p.1 = k
    · rw [List.find?_cons_of_pos _ (by simpa using hp)]
      constructor
      · intro hv
        simp only [Option.map_some', Option.some.injEq] at hv
        rw [← hp, ← hv]
        exact List.mem_cons_self _ _
      · intro hmem
        rcases List.mem_cons.1 hmem with heq | htail
        · simp [← heq]
        · exact absurd (List.mem_map.2 ⟨(k, v), htail, hp.symm⟩) h.1
    · rw [List.find?_cons_of_neg _ (by simpa using hp), ih h.2]
      constructor
      · exact fun hmem => List.mem_cons_of_mem _ hmem
      · intro hmem
        rcases List.mem_cons.1 hmem with heq | htail
        · exact absurd (by rw [← heq]) hp
        · exact htail

theorem GoMap.Load_eq_some_iff {κ ν : Type} [DecidableEq κ] (m : GoMap κ ν) (k : κ) (v : ν) :
    m.Load k = some v ↔ (k, v) ∈ m.entries :=
  find_entry_iff m.entries m.nodupKeys k v

theorem GoMap.mem_Store {κ ν : Type} [DecidableEq κ] (m : GoMap κ ν) (k : κ) (v : ν)
    (k1 : κ) (v1 : ν) :
    (k1, v1) ∈ (m.Store k v).entries ↔ (k1 = k ∧ v1 = v) ∨ (k1 ≠ k ∧ (k1, v1) ∈ m.entries) := by
  simp only [GoMap.Store, List.mem_cons, Prod.mk.injEq, List.mem_filter, decide_eq_true_eq]
  tauto

theorem GoMap.Load_Store_self {κ ν : Type} [DecidableEq κ] (m : GoMap κ ν) (k : κ) (v : ν) :
    (m.Store k v).Load k = some v := by
  rw [GoMap.Load_eq_some_iff, GoMap.mem_Store]
  exact Or.inl ⟨rfl, rfl⟩

theorem GoMap.Load_Store_ne {κ ν : Type} [DecidableEq κ] (m : GoMap κ ν) (k : κ) (v : ν)
    (k1 : κ) (h : k1 ≠ k) : (m.Store k v).Load k1 = m.Load k1 := by
  apply Option.ext
  intro v1
  rw [Option.mem_def, Option.mem_def, GoMap.Load_eq_some_iff, GoMap.Load_eq_some_iff,
    GoMap.mem_Store]
  constructor
  · rintro (⟨hk, _⟩ | ⟨_, hm⟩)
    · exact absurd hk h
    · exact hm
  · exact fun hm => Or.inr ⟨h, hm⟩

theorem GoMap.Len_Store_of_absent {κ ν : Type} [DecidableEq κ] (m : GoMap κ ν) (k : κ) (v : ν)
    (h : m.Load k = none) : (m.Store k v).Len = m.Len + 1 := by
  have hall : ∀ p ∈ m.entries, p.1 ≠ k := by
    intro p hp hk
    have : m.Load k = some p.2 := (GoMap.Load_eq_some_iff m k p.2).2 (by rw [← hk]; exact hp)
    rw [h] at this
    exact absurd this (by simp)
  have hfilter : (m.entries.filter fun p => p.1 ≠ k) = m.entries :=
    List.filter_eq_self.2 (by simpa using hall)
  simp only [GoMap.Store, GoMap.Len, hfilter, List.length_cons]

theorem GoMap.Len_Store_Store {κ ν : Type} [DecidableEq κ] (m : GoMap κ ν) (k : κ) (v w : ν) :
    ((m.Store k v).Store k w).Len = (m.Store k v).Len := by
  simp [GoMap.Store, GoMap.Len, List.filter_filter]

theorem GoMap.count_key_Store {κ ν : Type} [DecidableEq κ] (m : GoMap κ ν) (k : κ) (v : ν) :
    ((m.Store k v).entries.filter fun p => p.1 = k) = [(k, v)] := by
  simp only [GoMap.Store, List.filter_cons, decide_True, if_true, List.filter_filter]
  simp

theorem GoMap.index_Store_self {κ : Type} [DecidableEq κ] (m : GoMap κ Int) (k : κ) (v : Int) :
    (m.Store k v).index k = v := by
  simp [GoMap.index, GoMap.Load_Store_self]

theorem GoMap.index_Store_ne {κ : Type} [DecidableEq κ] (m : GoMap κ Int) (k : κ) (v : Int)
    (k1 : κ) (h : k1 ≠ k) : (m.Store k v).index k1 = m.index k1 := by
  simp [GoMap.index, GoMap.Load_Store_ne m k v k1 h]

theorem GoMap.index_empty {κ : Type} [DecidableEq κ] (k : κ) :
    (GoMap.empty : GoMap κ Int).index k = 0 := rfl

theorem flatMap_Errors_plainResult {ε : Type} (results : List (Option ε)) :
    (results.map plainResult).flatMap multierr.Errors = results.filterMap id := by
  induction results with
  | nil => rfl
  | cons x xs ih =>
    cases x with
    | none => simpa [plainResult, multierr.Errors] using ih
    | some e => simpa [plainResult, multierr.Errors, ErrorValue.Errors] using ih

theorem filterMap_plainResult {ε : Type} (results : List (Option ε)) :
    (results.map plainResult).filterMap id = (results.filterMap id).map ErrorValue.plain := by
  induction results with
  | nil => rfl
  | cons x xs ih =>
    cases x with
    | none => simpa [plainResult] using ih
    | some e => simpa [plainResult] using ih

theorem length_filterMap_id {ε : Type} (results : List (Option ε)) :
    (results.filterMap id).length = results.countP Option.isSome := by
  induction results with
  | nil => rfl
  | cons x xs ih =>
    cases x with
    | none => simpa using ih
    | some e => simpa using ih

/-! ## The claims on `ErrorWaitGroup` -/

/-- C1: `ErrorWaitGroup` preserves every failure.  For every list of errors handed to
`Done` by the units of a run (each unit declared with `Add(1)`, or fewer than `2^31`
units declared at once with `Add(N)`; the `Done` calls; `Wait`), `Wait` returns,
and the entries of the returned value are, in call order, the individual errors
handed over: an absent error contributes nothing, a plain error contributes itself,
an aggregate contributes its entries, nothing is dropped or duplicated.  When every
unit reports a plain failure or none, the entries are exactly the non-absent errors
passed to `Done`, and with `k` failing units there are exactly `k` entries.  The
same holds for the value `Wait` returns in any execution from a fresh group. -/
theorem C1_wait_preserves_every_failure {ε : Type} (errs : List (error ε))
    (results : List (Option ε)) (cs : List (Call ε)) :
    (runUnits errs).map multierr.Errors = some (errs.flatMap multierr.Errors)
    ∧ (runUnits (results.map plainResult)).map
          (fun r => (multierr.Errors r).map ErrorValue.plain)
        = some ((results.map plainResult).filterMap id)
    ∧ (runUnits (results.map plainResult)).map (fun r => (multierr.Errors r).length)
        = some (results.countP Option.isSome)
    ∧ (∀ s r, ErrorWaitGroup.fresh.exec cs = some s → s.Wait = some r →
        multierr.Errors r = (doneErrors cs).flatMap multierr.Errors)
    ∧ (errs.length < 2147483648 →
        (runUnitsBatch errs).map multierr.Errors = some (errs.flatMap multierr.Errors)) := by
  refine ⟨?_, ?_, ?_, ?_, ?_⟩
  · rw [runUnits_eq, Option.map_some', Errors_aggregate]
  · rw [runUnits_eq, Option.map_some', Errors_aggregate, flatMap_Errors_plainResult,
      filterMap_plainResult]
  · rw [runUnits_eq, Option.map_some', Errors_aggregate, flatMap_Errors_plainResult,
      length_filterMap_id]
  · intro s r hexec hwait
    have herr := (exec_invariant cs _ s hexec).1
    unfold ErrorWaitGroup.Wait at hwait
    split at hwait
    · simp only [Option.some.injEq] at hwait
      rw [← hwait, herr]
      exact Errors_aggregate (doneErrors cs)
    · exact absurd hwait (by simp)
  · intro hlen
    rw [runUnitsBatch_eq errs hlen, Option.map_some', Errors_aggregate]

/-- Witness for C1: two units started one after the other, the first failing with
"rate limited", the second succeeding; `Wait` returns and the value has exactly the
entry "rate limited". -/
theorem C1_wait_preserves_every_failure_witness :
    (ErrorWaitGroup.fresh.exec
        [Call.Add 1, Call.Done (some (ErrorValue.plain "rate limited")), Call.Add 1,
          Call.Done none]
      = some { err := some (ErrorValue.plain "rate limited"), group := WaitGroup.zero })
    ∧ multierr.Errors (some (ErrorValue.plain "rate limited")) = ["rate limited"] :=
  ⟨by decide,
   (C1_wait_preserves_every_failure [] []
      [Call.Add 1, Call.Done (some (ErrorValue.plain "rate limited")), Call.Add 1,
        Call.Done none]).2.2.2.1
      { err := some (ErrorValue.plain "rate limited"), group := WaitGroup.zero }
      (some (ErrorValue.plain "rate limited")) (by decide) (by decide)⟩

/-- C6: absent errors are no-ops for the aggregate.  In every state `Done(nil)`
writes `m.err` back as it was (`Append(m.err, nil)` is `m.err`), so it is exactly
the wait-group `Done` (`Add(-1)`); it goes through whenever a unit is outstanding.  On a fresh group, `Wait` after the `Done` calls of a run
returns nil if and only if every `Done` was given nil, hence a non-nil error as soon
as one `Done` was given a non-nil error; the same holds for `m.err` after any
execution. -/
theorem C6_absent_errors_are_noops {ε : Type} (m : ErrorWaitGroup ε) (errs : List (error ε))
    (cs : List (Call ε)) :
    multierr.Append m.err none = m.err
    ∧ m.Done none = m.Add (-1)
    ∧ (∀ m1, m.Done none = some m1 → m1.err = m.err)
    ∧ (0 < m.group.counter → ∃ m1, m.Done none = some m1 ∧ m1.err = m.err)
    ∧ (∃ r, runUnits errs = some r
        ∧ (r = none ↔ ∀ e ∈ errs, e = none)
        ∧ ((∃ e ∈ errs, e ≠ none) → r ≠ none))
    ∧ (∀ s, ErrorWaitGroup.fresh.exec cs = some s →
        (s.err = none ↔ ∀ e ∈ doneErrors cs, e = none)) := by
  have hdone : m.Done none = m.Add (-1) := by
    simp [ErrorWaitGroup.Done, ErrorWaitGroup.Add, multierr.Append_nil_right]
  have hkeep : ∀ m1, m.Done none = some m1 → m1.err = m.err := by
    intro m1 h
    rw [hdone] at h
    simp only [ErrorWaitGroup.Add, Option.map_eq_some'] at h
    obtain ⟨g, _, rfl⟩ := h
    rfl
  refine ⟨multierr.Append_nil_right m.err, hdone, hkeep, ?_, ?_, ?_⟩
  · intro hpos
    have hrange := m.group.inRange
    obtain ⟨g, hg, _⟩ := WaitGroup.Add_of_inRange m.group (-1) (by omega)
    refine ⟨{ m with group := g }, ?_, rfl⟩
    rw [hdone]
    simp [ErrorWaitGroup.Add, hg]
  · refine ⟨aggregate errs, runUnits_eq errs, aggregate_eq_nil errs, ?_⟩
    rintro ⟨e, he, hne⟩ hnil
    exact hne ((aggregate_eq_nil errs).1 hnil e he)
  · intro s hexec
    rw [(exec_invariant cs _ s hexec).1]
    exact aggregate_eq_nil (doneErrors cs)

/-- Witness for C6: with one unit outstanding and "boom" accumulated, `Done(nil)`
goes through and leaves the accumulated error "boom". -/
theorem C6_absent_errors_are_noops_witness :
    (0 : Int) < 1
    ∧ ∃ m1, ErrorWaitGroup.Done
            { err := some (ErrorValue.plain "boom")
              group := { counter := 1, inRange := by decide } } none
          = some m1
        ∧ m1.err = some (ErrorValue.plain "boom") :=
  ⟨by decide,
   (C6_absent_errors_are_noops
      ({ err := some (ErrorValue.plain "boom")
         group := { counter := 1, inRange := by decide } } : ErrorWaitGroup String)
      [] []).2.2.2.1 (by decide)⟩

/-- C10 as amended: `Wait` never returns while declared units are outstanding, for
a 32-bit count.  In every execution of `Add`, `Done` and `Wait` steps from a fresh
group in which no step panics: the value `Wait` returns is the aggregate of the
errors of all `Done` calls made so far, and `Wait` returns only when the sum of the
`Add` deltas and the number of completed `Done` calls differ by a multiple of
`2^32`; it does return when they are equal.  When the two differ by less than `2^32`
(as they do whenever fewer than `2^31` units are outstanding), `Wait` returns only
in a state where the number of completed `Done` calls equals the sum of all `Add`
deltas, and stays blocked otherwise. -/
theorem C10_wait_returns_only_when_all_done {ε : Type} (cs : List (Call ε))
    (s : ErrorWaitGroup ε) (hexec : ErrorWaitGroup.fresh.exec cs = some s) :
    (∀ v, s.Wait = some v →
        v = aggregate (doneErrors cs)
          ∧ (4294967296 : Int) ∣ addTotal cs - ((doneErrors cs).length : Int))
    ∧ (((doneErrors cs).length : Int) = addTotal cs →
        s.Wait = some (aggregate (doneErrors cs)))
    ∧ (-4294967296 < addTotal cs - ((doneErrors cs).length : Int)
          ∧ addTotal cs - ((doneErrors cs).length : Int) < 4294967296 →
        (∀ v, s.Wait = some v →
            ((doneErrors cs).length : Int) = addTotal cs ∧ v = aggregate (doneErrors cs))
          ∧ (((doneErrors cs).length : Int) ≠ addTotal cs → s.Wait = none)) := by
  obtain ⟨herr, ⟨q, hq⟩, hnonneg⟩ := exec_invariant cs _ s hexec
  have hrange := s.group.inRange
  have h0 : 0 ≤ s.group.counter := hnonneg (le_refl (0 : Int))
  simp only [ErrorWaitGroup.fresh, WaitGroup.zero, zero_add] at herr hq
  have hvalue : ∀ v, s.Wait = some v → v = aggregate (doneErrors cs) ∧ s.group.counter = 0 := by
    intro v hwait
    unfold ErrorWaitGroup.Wait at hwait
    split at hwait
    · simp only [Option.some.injEq] at hwait
      refine ⟨?_, ‹s.group.counter = 0›⟩
      rw [← hwait, herr]
      rfl
    · exact absurd hwait (by simp)
  refine ⟨?_, ?_, ?_⟩
  · intro v hwait
    obtain ⟨hv, hzero⟩ := hvalue v hwait
    exact ⟨hv, ⟨-q, by omega⟩⟩
  · intro hcount
    have hzero : s.group.counter = 0 := by omega
    simp only [ErrorWaitGroup.Wait, hzero, if_true, herr]
    rfl
  · intro hbound
    refine ⟨?_, ?_⟩
    · intro v hwait
      obtain ⟨hv, hzero⟩ := hvalue v hwait
      exact ⟨by omega, hv⟩
    · intro hcount
      have hne : ¬ s.group.counter = 0 := by omega
      simp [ErrorWaitGroup.Wait, hne]

/-- Witness for C10: after `Add(2)`, `Done("boom")`, `Done(nil)` the group is at
zero and the bound holds; `Wait` returns only with two `Done` calls matching the two
declared units, and its value is the aggregate of the two reported errors. -/
theorem C10_wait_returns_only_when_all_done_witness :
    (ErrorWaitGroup.fresh.exec
        [Call.Add 2, Call.Done (some (ErrorValue.plain "boom")), Call.Done none]
      = some { err := some (ErrorValue.plain "boom"), group := WaitGroup.zero })
    ∧ (-4294967296
          < addTotal [Call.Add 2, Call.Done (some (ErrorValue.plain "boom")), Call.Done none]
            - ((doneErrors [Call.Add 2, Call.Done (some (ErrorValue.plain "boom")),
                Call.Done none]).length : Int)
        ∧ addTotal [Call.Add 2, Call.Done (some (ErrorValue.plain "boom")), Call.Done none]
            - ((doneErrors [Call.Add 2, Call.Done (some (ErrorValue.plain "boom")),
                Call.Done none]).length : Int)
          < 4294967296)
    ∧ (∀ v, ErrorWaitGroup.Wait
            ({ err := some (ErrorValue.plain "boom"), group := WaitGroup.zero }
              : ErrorWaitGroup String)
          = some v →
        ((doneErrors [Call.Add 2, Call.Done (some (ErrorValue.plain "boom")),
            Call.Done none]).length : Int)
          = addTotal [Call.Add 2, Call.Done (some (ErrorValue.plain "boom")), Call.Done none]
        ∧ v = aggregate (doneErrors [Call.Add 2, Call.Done (some (ErrorValue.plain "boom")),
            Call.Done none])) :=
  ⟨by decide, by decide,
   ((C10_wait_returns_only_when_all_done
      [Call.Add 2, Call.Done (some (ErrorValue.plain "boom")), Call.Done none]
      { err := some (ErrorValue.plain "boom"), group := WaitGroup.zero }
      (by decide)).2.2 (by decide)).1⟩

/-- C10 as stated fails: after the single step `Add(4294967296)` on a fresh group no
step has panicked, the 32-bit counter is back at zero, so `Wait` returns (with nil),
although no `Done` call has completed while the sum of the `Add` deltas is `2^32`. -/
theorem C10_counterexample_Add_two_pow_32 :
    (ErrorWaitGroup.fresh.exec [(Call.Add 4294967296 : Call String)]
      = some ErrorWaitGroup.fresh)
    ∧ (ErrorWaitGroup.fresh : ErrorWaitGroup String).Wait = some none
    ∧ ((doneErrors [(Call.Add 4294967296 : Call String)]).length : Int) = 0
    ∧ addTotal [(Call.Add 4294967296 : Call String)] = 4294967296
    ∧ ((doneErrors [(Call.Add 4294967296 : Call String)]).length : Int)
        ≠ addTotal [(Call.Add 4294967296 : Call String)] := by
  refine ⟨by decide, by decide, by decide, by decide, by decide⟩

/-! ## The claims on the order registry -/

theorem submitAll_Load_of_not_mem {ρ υ : Type} (cs : List (Submission ρ υ))
    (r : OrderRegistry ρ υ) (k : OrderKey) (h : k ∉ cs.map Submission.key) :
    (r.submitAll cs).m.Load k = r.m.Load k := by
  induction cs generalizing r with
  | nil => rfl
  | cons c cs ih =>
    rw [List.map_cons, List.mem_cons, not_or] at h
    rw [OrderRegistry.submitAll, ih _ h.2]
    exact GoMap.Load_Store_ne _ _ _ _ h.1

theorem submitAll_Load_of_mem {ρ υ : Type} (cs : List (Submission ρ υ))
    (r : OrderRegistry ρ υ) (hnodup : (cs.map Submission.key).Nodup)
    (c : Submission ρ υ) (hc : c ∈ cs) :
    (r.submitAll cs).m.Load c.key = some c.value := by
  induction cs generalizing r with
  | nil => exact absurd hc (List.not_mem_nil c)
  | cons c0 cs ih =>
    rw [List.map_cons, List.nodup_cons] at hnodup
    rw [OrderRegistry.submitAll]
    rcases List.mem_cons.1 hc with heq | htail
    · subst heq
      rw [submitAll_Load_of_not_mem cs _ _ hnodup.1]
      exact GoMap.Load_Store_self _ _ _
    · exact ih _ hnodup.2 htail

theorem submitAll_Len {ρ υ : Type} (cs : List (Submission ρ υ)) (r : OrderRegistry ρ υ)
    (hnodup : (cs.map Submission.key).Nodup)
    (hfresh : ∀ c ∈ cs, r.m.Load c.key = none) :
    (r.submitAll cs).m.Len = r.m.Len + cs.length := by
  induction cs generalizing r with
  | nil => rfl
  | cons c0 cs ih =>
    rw [List.map_cons, List.nodup_cons] at hnodup
    rw [OrderRegistry.submitAll, ih _ hnodup.2]
    · have h0 : (r.OnSubmit c0.exchangeName c0.response c0.userData).m.Len = r.m.Len + 1 :=
        GoMap.Len_Store_of_absent _ _ _ (hfresh c0 (List.mem_cons_self _ _))
      rw [h0, List.length_cons]
      omega
    · intro c hc
      have hne : c.key ≠ c0.key := by
        intro heq
        exact hnodup.1 (heq ▸ List.mem_map_of_mem Submission.key hc)
      have hstep : (r.OnSubmit c0.exchangeName c0.response c0.userData).m.Load c.key
          = r.m.Load c.key := GoMap.Load_Store_ne _ _ _ _ hne
      rw [hstep]
      exact hfresh c (List.mem_cons_of_mem _ hc)

/-- C2: for every registry state, venue name, acknowledgement and context, after
`OnSubmit(venueName, ack, context)` the registry maps the key
`OrderKey{venueName, ack.OrderID}` to `OrderValue{ack, context}`, and what is stored
under every other key is as before (no other key is added or removed). -/
theorem C2_OnSubmit_stores_under_key {ρ υ : Type} (r : OrderRegistry ρ υ)
    (exchangeName : String) (response : SubmitResponse ρ) (userData : υ) :
    (r.OnSubmit exchangeName response userData).m.Load
        { ExchangeName := exchangeName, OrderID := response.OrderID }
      = some { SubmitResponse := response, UserData := userData }
    ∧ ∀ key : OrderKey, key ≠ { ExchangeName := exchangeName, OrderID := response.OrderID } →
        (r.OnSubmit exchangeName response userData).m.Load key = r.m.Load key :=
  ⟨GoMap.Load_Store_self _ _ _, fun key h => GoMap.Load_Store_ne _ _ _ key h⟩

/-- Witness for C2: submitting order "2" on venue "kraken" to a registry that holds
order "1" of that venue stores the new entry and leaves the entry of order "1". -/
theorem C2_OnSubmit_stores_under_key_witness :
    ({ ExchangeName := "kraken", OrderID := "1" } : OrderKey)
        ≠ { ExchangeName := "kraken", OrderID := "2" }
    ∧ (((NewOrderRegistry : OrderRegistry Nat Nat).OnSubmit "kraken"
            { OrderID := "1", rest := 10 } 7).OnSubmit "kraken"
            { OrderID := "2", rest := 20 } 8).m.Load { ExchangeName := "kraken", OrderID := "1" }
        = ((NewOrderRegistry : OrderRegistry Nat Nat).OnSubmit "kraken"
            { OrderID := "1", rest := 10 } 7).m.Load { ExchangeName := "kraken", OrderID := "1" } :=
  ⟨by decide,
   (C2_OnSubmit_stores_under_key
      ((NewOrderRegistry : OrderRegistry Nat Nat).OnSubmit "kraken"
        { OrderID := "1", rest := 10 } 7)
      "kraken" { OrderID := "2", rest := 20 } 8).2
      { ExchangeName := "kraken", OrderID := "1" } (by decide)⟩

/-- C3: last write wins.  For every registry state, two `OnSubmit` calls with the
same venue name and the same acknowledgement order ID leave exactly one entry for
that key, holding the second call's acknowledgement and context, and the registry
has as many entries as after the first call alone.  `OnSubmit` has no error result:
it is a total function on registry states. -/
theorem C3_last_write_wins {ρ υ : Type} (r : OrderRegistry ρ υ) (exchangeName : String)
    (response1 response2 : SubmitResponse ρ) (userData1 userData2 : υ)
    (h : response1.OrderID = response2.OrderID) :
    (((r.OnSubmit exchangeName response1 userData1).OnSubmit exchangeName response2
          userData2).m.entries.filter
        fun p => p.1 = { ExchangeName := exchangeName, OrderID := response1.OrderID })
      = [({ ExchangeName := exchangeName, OrderID := response1.OrderID },
          { SubmitResponse := response2, UserData := userData2 })]
    ∧ ((r.OnSubmit exchangeName response1 userData1).OnSubmit exchangeName response2
          userData2).m.Load { ExchangeName := exchangeName, OrderID := response1.OrderID }
      = some { SubmitResponse := response2, UserData := userData2 }
    ∧ ((r.OnSubmit exchangeName response1 userData1).OnSubmit exchangeName response2
          userData2).m.Len
      = (r.OnSubmit exchangeName response1 userData1).m.Len := by
  simp only [OrderRegistry.OnSubmit, ← h]
  exact ⟨GoMap.count_key_Store _ _ _, GoMap.Load_Store_self _ _ _, GoMap.Len_Store_Store _ _ _ _⟩

/-- Witness for C3: order "1" of venue "kraken" submitted twice to the empty
registry, with different acknowledgement data and contexts. -/
theorem C3_last_write_wins_witness :
    ("1" : String) = "1"
    ∧ (((NewOrderRegistry : OrderRegistry Nat Nat).OnSubmit "kraken"
          { OrderID := "1", rest := 10 } 7).OnSubmit "kraken"
          { OrderID := "1", rest := 20 } 8).m.Load { ExchangeName := "kraken", OrderID := "1" }
      = some { SubmitResponse := { OrderID := "1", rest := 20 }, UserData := 8 } :=
  ⟨rfl,
   (C3_last_write_wins (NewOrderRegistry : OrderRegistry Nat Nat) "kraken"
      { OrderID := "1", rest := 10 } { OrderID := "1", rest := 20 } 7 8 rfl).2.1⟩

/-- C8: no lost updates for distinct keys.  Starting from the empty registry, for
every list of `OnSubmit` calls whose (venue name, order ID) pairs are pairwise
distinct, taking effect in any order, the registry ends with exactly as many entries
as there are calls, and reading back the key of each call returns the
acknowledgement and context of that call. -/
theorem C8_no_lost_updates {ρ υ : Type} (calls order : List (Submission ρ υ))
    (hdistinct : (calls.map Submission.key).Nodup) (horder : order.Perm calls) :
    ((NewOrderRegistry : OrderRegistry ρ υ).submitAll order).m.Len = calls.length
    ∧ ∀ c ∈ calls,
        ((NewOrderRegistry : OrderRegistry ρ υ).submitAll order).m.Load c.key = some c.value := by
  have hnodup : (order.map Submission.key).Nodup :=
    (List.Perm.nodup_iff (horder.map Submission.key)).2 hdistinct
  constructor
  · have hfresh : ∀ c ∈ order, (NewOrderRegistry : OrderRegistry ρ υ).m.Load c.key = none :=
      fun _ _ => rfl
    rw [submitAll_Len order NewOrderRegistry hnodup hfresh, ← horder.length_eq]
    simp [NewOrderRegistry, GoMap.Len, GoMap.empty]
  · intro c hc
    exact submitAll_Load_of_mem order _ hnodup c (horder.mem_iff.2 hc)

/-- Witness for C8: three submissions with distinct keys, taking effect in another
order than listed. -/
theorem C8_no_lost_updates_witness :
    (([{ exchangeName := "kraken", response := { OrderID := "1", rest := 10 }, userData := 7 },
        { exchangeName := "kraken", response := { OrderID := "2", rest := 20 }, userData := 8 },
        { exchangeName := "bitfinex", response := { OrderID := "1", rest := 30 }, userData := 9 }]
        : List (Submission Nat Nat)).map Submission.key).Nodup
    ∧ ((NewOrderRegistry : OrderRegistry Nat Nat).submitAll
        [{ exchangeName := "bitfinex", response := { OrderID := "1", rest := 30 }, userData := 9 },
         { exchangeName := "kraken", response := { OrderID := "1", rest := 10 }, userData := 7 },
         { exchangeName := "kraken", response := { OrderID := "2", rest := 20 }, userData := 8 }]
        ).m.Len = 3 :=
  ⟨by decide,
   (C8_no_lost_updates
      [{ exchangeName := "kraken", response := { OrderID := "1", rest := 10 }, userData := 7 },
       { exchangeName := "kraken", response := { OrderID := "2", rest := 20 }, userData := 8 },
       { exchangeName := "bitfinex", response := { OrderID := "1", rest := 30 }, userData := 9 }]
      [{ exchangeName := "bitfinex", response := { OrderID := "1", rest := 30 }, userData := 9 },
       { exchangeName := "kraken", response := { OrderID := "1", rest := 10 }, userData := 7 },
       { exchangeName := "kraken", response := { OrderID := "2", rest := 20 }, userData := 8 }]
      (by decide)
      ((List.Perm.swap _ _ _).trans
        ((List.Perm.swap _ _ _).cons _))).1⟩

/-! ## The claims on the resource checker -/

theorem CheckerPush_single (location2 name : String) (c : resourceChecker) :
    CheckerPush location2 [name] c
      = some { resources := c.resources.Store name (c.resources.index name + 1) } := rfl

theorem CheckerPop_single (location2 name : String) (c : resourceChecker) :
    CheckerPop location2 [name] c
      = some { resources := c.resources.Store name (c.resources.index name - 1) } := rfl

theorem runChecker_counts (location2 : String) (cs : List CheckerCall) (c : resourceChecker) :
    ∃ c1, runChecker location2 c cs = some c1
      ∧ ∀ x, c1.resources.index x
          = c.resources.index x + (pushCount x cs : Int) - (popCount x cs : Int) := by
  induction cs generalizing c with
  | nil => exact ⟨c, rfl, fun x => by simp [pushCount, popCount]⟩
  | cons call cs ih =>
    cases call with
    | Push name =>
      obtain ⟨c1, hrun, hcount⟩ :=
        ih { resources := c.resources.Store name (c.resources.index name + 1) }
      refine ⟨c1, by simpa [runChecker, CheckerPush_single] using hrun, fun x => ?_⟩
      rw [hcount x]
      by_cases hx : x = name
      · subst hx
        simp only [GoMap.index_Store_self, pushCount, popCount, List.count_cons_self,
          List.count_cons_of_ne (a := CheckerCall.Pop x) (b := CheckerCall.Push x) (by simp)]
        push_cast
        omega
      · have hne : CheckerCall.Push x ≠ CheckerCall.Push name := by simpa using hx
        simp only [GoMap.index_Store_ne _ _ _ _ hx, pushCount, popCount,
          List.count_cons_of_ne hne,
          List.count_cons_of_ne (a := CheckerCall.Pop x) (b := CheckerCall.Push name) (by simp)]
    | Pop name =>
      obtain ⟨c1, hrun, hcount⟩ :=
        ih { resources := c.resources.Store name (c.resources.index name - 1) }
      refine ⟨c1, by simpa [runChecker, CheckerPop_single] using hrun, fun x => ?_⟩
      rw [hcount x]
      by_cases hx : x = name
      · subst hx
        simp only [GoMap.index_Store_self, pushCount, popCount, List.count_cons_self,
          List.count_cons_of_ne (a := CheckerCall.Push x) (b := CheckerCall.Pop x) (by simp)]
        push_cast
        omega
      · have hne : CheckerCall.Pop x ≠ CheckerCall.Pop name := by simpa using hx
        simp only [GoMap.index_Store_ne _ _ _ _ hx, pushCount, popCount,
          List.count_cons_of_ne hne,
          List.count_cons_of_ne (a := CheckerCall.Push x) (b := CheckerCall.Pop name) (by simp)]

theorem foldl_warn (l : List (String × Int)) (log : List LogEvent) :
    l.foldl
        (fun log kv =>
          if kv.2 ≠ 0 then log ++ [LogEvent.Warn kv.2 kv.1 "leaked resource"] else log) log
      = log ++ (l.filter fun kv => kv.2 ≠ 0).map
          fun kv => LogEvent.Warn kv.2 kv.1 "leaked resource" := by
  induction l generalizing log with
  | nil => simp
  | cons kv l ih =>
    rw [List.foldl_cons, ih]
    by_cases h : kv.2 = 0
    · simp [h]
    · simp [h]

theorem CheckerAssert_log (c : resourceChecker) :
    (CheckerAssert c).2
      = LogEvent.Debug "checking resources..." ::
          (c.resources.entries.filter fun kv => kv.2 ≠ 0).map
            fun kv => LogEvent.Warn kv.2 kv.1 "leaked resource" := by
  simp only [CheckerAssert, foldl_warn]
  rfl

theorem CheckerAssert_warn_iff (c : resourceChecker) (k : String) (v : Int) (w : String) :
    LogEvent.Warn v k w ∈ (CheckerAssert c).2
      ↔ w = "leaked resource" ∧ c.resources.Load k = some v ∧ v ≠ 0 := by
  rw [CheckerAssert_log, GoMap.Load_eq_some_iff]
  simp only [List.mem_cons, List.mem_map, List.mem_filter, decide_eq_true_eq,
    LogEvent.Warn.injEq, Prod.exists]
  constructor
  · rintro (hdebug | ⟨k1, v1, ⟨hmem, hne⟩, rfl, rfl, hw⟩)
    · cases hdebug
    · exact ⟨hw.symm, hmem, hne⟩
  · rintro ⟨rfl, hmem, hne⟩
    exact Or.inr ⟨k, v, ⟨hmem, hne⟩, rfl, rfl, rfl⟩

/-- C4: exact-count guarantee of the leak counter.  Starting from the empty counter
map, every sequence of single-name `CheckerPush(name)` / `CheckerPop(name)` calls
runs through, and afterwards the counter of every name (0 when absent) is the number
of `Push` calls for it minus the number of `Pop` calls for it.  `Push(x)`,
`Pop(x)` leaves counter `x` at 0; `Push(x)`, `Push(x)`, `Pop(x)` leaves it at 1; a
call on another name leaves counter `x` as it was. -/
theorem C4_exact_count (location2 : String) (calls : List CheckerCall) (x : String) :
    (∃ c, runChecker location2 defaultResourceChecker calls = some c
      ∧ ∀ name, c.resources.index name
          = (pushCount name calls : Int) - (popCount name calls : Int))
    ∧ (runChecker location2 defaultResourceChecker
          [CheckerCall.Push x, CheckerCall.Pop x]).map (fun c => c.resources.index x) = some 0
    ∧ (runChecker location2 defaultResourceChecker
          [CheckerCall.Push x, CheckerCall.Push x, CheckerCall.Pop x]).map
          (fun c => c.resources.index x) = some 1
    ∧ (∀ (c : resourceChecker) (name : String), name ≠ x →
        (CheckerPush location2 [name] c).map (fun c1 => c1.resources.index x)
            = some (c.resources.index x)
          ∧ (CheckerPop location2 [name] c).map (fun c1 => c1.resources.index x)
            = some (c.resources.index x)) := by
  refine ⟨?_, ?_, ?_, ?_⟩
  · obtain ⟨c, hrun, hcount⟩ := runChecker_counts location2 calls defaultResourceChecker
    refine ⟨c, hrun, fun name => ?_⟩
    rw [hcount name]
    simp [defaultResourceChecker, GoMap.index_empty]
  · simp [runChecker, CheckerPush_single, CheckerPop_single, GoMap.index_Store_self,
      defaultResourceChecker, GoMap.index_empty]
  · simp [runChecker, CheckerPush_single, CheckerPop_single, GoMap.index_Store_self,
      defaultResourceChecker, GoMap.index_empty]
  · intro c name hne
    simp [CheckerPush_single, CheckerPop_single, GoMap.index_Store_ne _ _ _ _ hne.symm]

/-- Witness for C4: with counter "x" at 1, a `Push("y")` and a `Pop("y")` each leave
counter "x" at 1. -/
theorem C4_exact_count_witness :
    ("y" : String) ≠ "x"
    ∧ (CheckerPush "main" ["y"]
          { resources := GoMap.Store GoMap.empty "x" 1 }).map (fun c1 => c1.resources.index "x")
        = some ((GoMap.Store GoMap.empty "x" 1).index "x")
    ∧ (CheckerPop "main" ["y"]
          { resources := GoMap.Store GoMap.empty "x" 1 }).map (fun c1 => c1.resources.index "x")
        = some ((GoMap.Store GoMap.empty "x" 1).index "x") :=
  ⟨by decide,
   (C4_exact_count "main" [] "x").2.2.2
      { resources := GoMap.Store GoMap.empty "x" 1 } "y" (by decide)⟩

/-- C5: `CheckerAssert` reports exactly the leaked resources.  For every counter map,
a warning with counter `v` and unit `k` is emitted if and only if the map holds `v`
under `k` and `v` is not zero (positive or negative), and every warning is the
"leaked resource" warning; a name whose counter is zero, or that is absent, gets no
warning; the events are the debug event followed by one warning per entry with a
non-zero counter; and `CheckerAssert` leaves the checker state, hence every counter,
as it was. -/
theorem C5_assert_reports_exactly_leaks (c : resourceChecker) :
    (∀ (k : String) (v : Int) (w : String),
        LogEvent.Warn v k w ∈ (CheckerAssert c).2
          ↔ w = "leaked resource" ∧ c.resources.Load k = some v ∧ v ≠ 0)
    ∧ (∀ k : String, c.resources.index k = 0 →
        ∀ (v : Int) (w : String), LogEvent.Warn v k w ∉ (CheckerAssert c).2)
    ∧ (CheckerAssert c).2
        = LogEvent.Debug "checking resources..." ::
            (c.resources.entries.filter fun kv => kv.2 ≠ 0).map
              (fun kv => LogEvent.Warn kv.2 kv.1 "leaked resource")
    ∧ (CheckerAssert c).1.resources.entries = c.resources.entries
    ∧ (∀ k : String, (CheckerAssert c).1.resources.index k = c.resources.index k) := by
  refine ⟨CheckerAssert_warn_iff c, ?_, CheckerAssert_log c, rfl, fun _ => rfl⟩
  intro k hzero v w hmem
  obtain ⟨_, hload, hne⟩ := (CheckerAssert_warn_iff c k v w).1 hmem
  rw [GoMap.index, hload] at hzero
  exact hne hzero

/-- Witness for C5: after `Push("x")`, `Pop("x")` the counter "x" is present with
value 0, and no warning about "x" is emitted. -/
theorem C5_assert_reports_exactly_leaks_witness :
    (GoMap.Store (GoMap.Store GoMap.empty "x" 1) "x" 0).index "x" = 0
    ∧ ∀ (v : Int) (w : String),
        LogEvent.Warn v "x" w
          ∉ (CheckerAssert { resources := GoMap.Store (GoMap.Store GoMap.empty "x" 1) "x" 0 }).2 :=
  ⟨by decide,
   (C5_assert_reports_exactly_leaks
      { resources := GoMap.Store (GoMap.Store GoMap.empty "x" 1) "x" 0 }).2.1 "x" (by decide)⟩

/-! ## The claim on the toolbelt -/

/-- C9: `CurrencyBalance` reports lookup miss and downcast failure as two distinct
errors.  When `Root.Get("balances")` fails with `ErrStrategyNotFound`, the result is
the empty balance and `ErrNeedBalancesStrategy`; when the lookup does not fail so
and yields something that is not a `*BalancesStrategy`, the result is the empty
balance and `ErrCast`.  The two errors differ, so neither is returned in the other
case, and in both cases `Currency` is not invoked. -/
theorem C9_lookup_miss_and_cast_failure_distinct {β : Type} [Inhabited β] (k : Keep β)
    (exchangeName currencyCode : String) (accountIndex : Int) :
    (errors.Is (k.Root.Get "balances").2 GoErr.ErrStrategyNotFound = true →
        CurrencyBalance k exchangeName currencyCode accountIndex
            = ((default, some (ErrorValue.plain GoErr.ErrNeedBalancesStrategy)), [])
          ∧ (CurrencyBalance k exchangeName currencyCode accountIndex).1.2
            ≠ some (ErrorValue.plain GoErr.ErrCast))
    ∧ (errors.Is (k.Root.Get "balances").2 GoErr.ErrStrategyNotFound = false →
        (∀ b, (k.Root.Get "balances").1 ≠ some (Strategy.BalancesStrategyPtr b)) →
        CurrencyBalance k exchangeName currencyCode accountIndex
            = ((default, some (ErrorValue.plain GoErr.ErrCast)), [])
          ∧ (CurrencyBalance k exchangeName currencyCode accountIndex).1.2
            ≠ some (ErrorValue.plain GoErr.ErrNeedBalancesStrategy))
    ∧ (some (ErrorValue.plain GoErr.ErrNeedBalancesStrategy) : error GoErr)
        ≠ some (ErrorValue.plain GoErr.ErrCast) := by
  refine ⟨?_, ?_, by decide⟩
  · intro hmiss
    have hres : CurrencyBalance k exchangeName currencyCode accountIndex
        = ((default, some (ErrorValue.plain GoErr.ErrNeedBalancesStrategy)), []) := by
      simp only [CurrencyBalance, hmiss, if_true]
    refine ⟨hres, ?_⟩
    rw [hres]
    simp
  · intro hfound hcast
    have hres : CurrencyBalance k exchangeName currencyCode accountIndex
        = ((default, some (ErrorValue.plain GoErr.ErrCast)), []) := by
      simp only [CurrencyBalance, hfound]
      rcases hst : (k.Root.Get "balances").1 with _ | (b | t)
      · simp
      · exact absurd hst (hcast b)
      · simp
    refine ⟨hres, ?_⟩
    rw [hres]
    simp

/-- Witness for C9: a registry without a "balances" strategy (lookup miss), and a
registry whose "balances" entry is a `VerboseStrategy` (failed downcast). -/
theorem C9_lookup_miss_and_cast_failure_distinct_witness :
    (CurrencyBalance
        ({ Root := { Get := fun _ =>
            (none, some (ErrorValue.plain GoErr.ErrStrategyNotFound)) } } : Keep Nat)
        "kraken" "BTC" 0
      = ((default, some (ErrorValue.plain GoErr.ErrNeedBalancesStrategy)), []))
    ∧ (CurrencyBalance
        ({ Root := { Get := fun _ => (some (Strategy.other "VerboseStrategy"), none) } } : Keep Nat)
        "kraken" "BTC" 0
      = ((default, some (ErrorValue.plain GoErr.ErrCast)), [])) :=
  ⟨((C9_lookup_miss_and_cast_failure_distinct
      ({ Root := { Get := fun _ =>
          (none, some (ErrorValue.plain GoErr.ErrStrategyNotFound)) } } : Keep Nat)
      "kraken" "BTC" 0).1 (by decide)).1,
   ((C9_lookup_miss_and_cast_failure_distinct
      ({ Root := { Get := fun _ => (some (Strategy.other "VerboseStrategy"), none) } } : Keep Nat)
      "kraken" "BTC" 0).2.1 (by decide) (by intro b h; cases h)).1⟩

end Dola
